import Mathlib

/-!
Shallow embedding of the Task Collection Engine of TaskFlow Pro
(`src/script.js`, class `TaskManager`, v1.4.0 revision).

Conventions of the embedding:
* ISO datetime / date strings are modelled by their parsed epoch-millisecond
  value (`Int`); a JS `null` / absent optional value is `Option.none`.
* `Date.now()` / `new Date()` is passed explicitly as a `now : Int` parameter.
* The single pending-delete slot (`this.deletedTask`) is a field of the state;
  the `setTimeout` expiry callback is modelled as the separate event
  `expireUndo` (firing it sets the slot to `none`), so "the undo window has not
  expired" simply means that event has not been interposed.
* `localStorage` persistence (`saveTasks`) is invisible to the properties
  below and is not modelled.
-/

namespace TaskFlow

/-- A task object, with the exact fields built by `addTask` / `importTasks`. -/
structure Task where
  id : String
  text : String
  priority : String
  category : String
  dueDate : Option Int
  completed : Bool
  completedAt : Option Int
  createdAt : Int
  order : Int
deriving Repr, DecidableEq

/-- The mutable state of `TaskManager` relevant to the collection claims:
the task array and the pending-delete slot.  (The view settings
`filter` / `sort` / `searchQuery` are passed as parameters to the view
function below; no mutation operation reads or writes them.) -/
structure MState where
  tasks : List Task
  deletedTask : Option Task
deriving Repr, DecidableEq

/-- `String.prototype.trim`: drop leading and trailing whitespace. -/
def trimChars (cs : List Char) : List Char :=
  (((cs.dropWhile Char.isWhitespace).reverse).dropWhile Char.isWhitespace).reverse

/-- `s.trim()` on strings. -/
def jsTrim (s : String) : String := ⟨trimChars s.data⟩

/-- `x || d` for JS strings: the empty string is falsy. -/
def jsOrStr (v : Option String) (d : String) : String :=
  match v with
  | some s => if s = "" then d else s
  | none => d

/-- `x || d` for JS numbers: `0` is falsy. -/
def jsOrIdx (v : Option Int) (d : Int) : Int :=
  match v with
  | some o => if o = 0 then d else o
  | none => d

/-- `Array.prototype.findIndex`, with `-1` rendered as `none`. -/
def jsFindIndex (p : Task → Bool) : List Task → Option Nat
  | [] => none
  | t :: ts => if p t then some 0 else (jsFindIndex p ts).map (· + 1)

/-- `array.splice(i, 1)`. -/
def removeAt {α : Type} : Nat → List α → List α
  | _, [] => []
  | 0, _ :: ts => ts
  | n + 1, t :: ts => t :: removeAt n ts

/-- `array.splice(i, 0, x)` (an index past the end appends, as in JS). -/
def insertAt {α : Type} : Nat → α → List α → List α
  | 0, x, ts => x :: ts
  | _ + 1, x, [] => [x]
  | n + 1, x, t :: ts => t :: insertAt n x ts

/-- `this.tasks.forEach((task, idx) => { task.order = idx; })`, starting the
index count at `n`. -/
def reindexFrom (n : Nat) : List Task → List Task
  | [] => []
  | t :: ts => { t with order := (n : Int) } :: reindexFrom (n + 1) ts

/-- The order-reindexing pass run after structural mutations. -/
def reindex (ts : List Task) : List Task := reindexFrom 0 ts

/-- The argument object of `addTask` (built by the UI from the form). -/
structure Draft where
  text : String
  priority : Option String
  category : Option String
  dueDate : Option Int
deriving Repr, DecidableEq

/-- `TaskManager.addTask` (script.js lines 57-73): builds the task with
`id = Date.now().toString()`, trimmed text, falsy-defaulted priority and
category, `order = this.tasks.length`, and unshifts it to the front.
There is no validation of any kind in this method. -/
def addTask (st : MState) (now : Int) (d : Draft) : MState × Task :=
  let task : Task :=
    { id := toString now,
      text := jsTrim d.text,
      priority := jsOrStr d.priority ("medium"),
      category := jsOrStr d.category (""),
      dueDate := d.dueDate,
      completed := false,
      completedAt := none,
      createdAt := now,
      order := (st.tasks.length : Int) }
  ({ st with tasks := task :: st.tasks }, task)

/-- `UIController.handleAddTask` (script.js lines 961-995), the caller of
`addTask`: trims the input, refuses to call `addTask` when the trimmed text
is empty (it shows an error instead), and otherwise passes the trimmed text
through.  DOM work is dropped; the returned `Option Task` is `none` exactly
when nothing was added. -/
def handleAddTask (st : MState) (now : Int) (input priority category : String)
    (dueDate : Option Int) : MState × Option Task :=
  let text := jsTrim input
  if text = "" then (st, none)
  else
    let r := addTask st now
      { text := text, priority := some priority, category := some category,
        dueDate := dueDate }
    (r.1, some r.2)

/-- `TaskManager.deleteTask` (script.js lines 84-109): when the id is found,
stores the removed task in the pending-delete slot, splices it out,
reindexes the remaining tasks, and returns it; otherwise returns `null`.
(`jsFindIndex` always returns an in-bounds index, so the inner `none`
branch is unreachable.) -/
def deleteTask (st : MState) (id : String) : MState × Option Task :=
  match jsFindIndex (fun t => t.id == id) st.tasks with
  | none => (st, none)
  | some i =>
    match st.tasks[i]? with
    | none => (st, none)
    | some t =>
      ({ tasks := reindex (removeAt i st.tasks), deletedTask := some t },
        some t)

/-- `TaskManager.undoDelete` (script.js lines 111-130): if the slot is
occupied, unshifts its task to the front, reindexes every task, clears the
slot and returns the restored task (the returned object is the unshifted
one, whose `order` the reindex pass has just set to `0`, hence `head?`). -/
def undoDelete (st : MState) : MState × Option Task :=
  match st.deletedTask with
  | none => (st, none)
  | some t =>
    let ts := reindex (t :: st.tasks)
    ({ tasks := ts, deletedTask := none }, ts.head?)

/-- The `setTimeout` callback armed by `deleteTask`: firing it forgets the
pending-delete slot. -/
def expireUndo (st : MState) : MState := { st with deletedTask := none }

/-- `TaskManager.toggleTaskCompletion` (script.js lines 132-145) acts on the
first task matching the id (`Array.prototype.find`): flips `completed` and
sets / clears `completedAt` accordingly.  Returns the updated task. -/
def toggleFirst (now : Int) (id : String) : List Task → List Task × Option Task
  | [] => ([], none)
  | t :: ts =>
    if t.id == id then
      let t2 := if t.completed then { t with completed := false, completedAt := none }
                else { t with completed := true, completedAt := some now }
      (t2 :: ts, some t2)
    else
      let r := toggleFirst now id ts
      (t :: r.1, r.2)

/-- State-level wrapper of `toggleFirst`. -/
def toggleTaskCompletion (st : MState) (now : Int) (id : String) :
    MState × Option Task :=
  let r := toggleFirst now id st.tasks
  ({ st with tasks := r.1 }, r.2)

/-- `TaskManager.reorderTasks` (script.js lines 147-168): both indices are
computed on the original array; the guard rejects absent ids and equal
indices; the dragged task is spliced out at `draggedIndex` and spliced back
in at the original (pre-removal) `targetIndex`; then all orders are
reindexed.  (As in `deleteTask`, the inner `none` branch is unreachable.) -/
def reorderTasks (st : MState) (draggedId targetId : String) : MState × Bool :=
  match jsFindIndex (fun t => t.id == draggedId) st.tasks,
        jsFindIndex (fun t => t.id == targetId) st.tasks with
  | some di, some ti =>
    if di = ti then (st, false)
    else
      match st.tasks[di]? with
      | none => (st, false)
      | some dragged =>
        ({ st with tasks := reindex (insertAt ti dragged (removeAt di st.tasks)) },
          true)
  | _, _ => (st, false)

/-- `TaskManager.clearCompleted` (script.js lines 219-230). -/
def clearCompleted (st : MState) : MState × Nat :=
  let n := (st.tasks.filter (fun t => t.completed)).length
  ({ st with tasks := reindex (st.tasks.filter (fun t => !t.completed)) }, n)

/-- `TaskManager.clearAll` (script.js lines 232-237): empties the array and
returns the prior count.  It touches neither the pending-delete slot nor
its timer. -/
def clearAll (st : MState) : MState × Nat :=
  ({ st with tasks := [] }, st.tasks.length)

/-- A record of the import wire format as it comes out of `JSON.parse`:
every field may be absent.  `completed` holds the value of
`Boolean(task.completed)` (absent coerces to `false`). -/
structure RawTask where
  id : Option String
  text : Option String
  priority : Option String
  category : Option String
  dueDate : Option Int
  completed : Bool
  completedAt : Option Int
  createdAt : Option Int
  order : Option Int
deriving Repr, DecidableEq

/-- The task object `importTasks` pushes for a record, with the source's
falsy-defaulting (`order: task.order || this.tasks.length` — note `0` is
falsy — where `this.tasks` already contains the records pushed so far). -/
def mkImported (now : Int) (cur : List Task) (r : RawTask) : Task :=
  { id := jsOrStr r.id (toString now),
    text := r.text.getD (""),
    priority := jsOrStr r.priority ("medium"),
    category := jsOrStr r.category (""),
    dueDate := r.dueDate,
    completed := r.completed,
    completedAt := r.completedAt,
    createdAt := r.createdAt.getD now,
    order := jsOrIdx r.order (cur.length : Int) }

/-- `this.tasks.some(t => t.id === task.id)` — the duplicate check compares
existing ids against the *raw* record id (`undefined` matches nothing). -/
def rawIdExists (cur : List Task) (rid : Option String) : Bool :=
  match rid with
  | some s => cur.any (fun t => t.id == s)
  | none => false

/-- The `tasks.forEach` merge loop of `importTasks`.  A `null` element makes
the loop throw (`task.id` is dereferenced both in the duplicate check and in
the pushed object), which aborts the `forEach` with the records pushed so
far still in `this.tasks`; the `Bool` records whether the loop ran to
completion. -/
def importLoop (now : Int) : List Task → List (Option RawTask) → List Task × Bool
  | cur, [] => (cur, true)
  | cur, none :: _ => (cur, false)
  | cur, some r :: rest =>
    let cur2 := if rawIdExists cur r.id then cur
                else cur ++ [mkImported now cur r]
    importLoop now cur2 rest

/-- Result object of `importTasks`: `{success:true, count}` or
`{success:false, error}`. -/
inductive ImportResult where
  | ok (count : Nat)
  | err (msg : String)
deriving Repr, DecidableEq

/-- The import payload after `JSON.parse` and the unwrap
`imported.tasks || imported`: either an array of records (elements may be
JSON `null`), or anything that is not an array — including a `JSON.parse`
failure — which throws with some message before any mutation. -/
inductive ImportPayload where
  | arr (items : List (Option RawTask))
  | bad (msg : String)
deriving Repr, DecidableEq

/-- The records of a payload (empty for a non-array payload). -/
def payloadItems : ImportPayload → List (Option RawTask)
  | .arr items => items
  | .bad _ => []

/-- `TaskManager.importTasks` (script.js lines 309-344).  On a non-array
payload the `throw` happens before any mutation, so the catch returns a
failure with the collection untouched.  If the merge loop completes, every
order is reindexed and `{success:true, count: tasks.length}` is returned;
if the loop throws part-way, the catch returns a failure but the records
already pushed remain (and are not reindexed). -/
def importTasks (st : MState) (now : Int) (p : ImportPayload) :
    MState × ImportResult :=
  match p with
  | .bad msg => (st, .err msg)
  | .arr items =>
    let r := importLoop now st.tasks items
    if r.2 then
      ({ st with tasks := reindex r.1 }, .ok items.length)
    else
      ({ st with tasks := r.1 }, .err ("Cannot read properties of null"))

/-! ### The streak calculation -/

/-- Milliseconds per UTC day. -/
def msPerDay : Int := 86400000

/-- `Date.UTC(d.getUTCFullYear(), d.getUTCMonth(), d.getUTCDate())` for the
date holding timestamp `t`: Unix-time UTC days are exactly `86400000` ms, so
the day key is the floor of `t` to a day boundary. -/
def dayFloor (t : Int) : Int := (Int.fdiv t msPerDay) * msPerDay

/-- The day keys collected into `uniqueDays` (only tasks with
`task.completed && task.completedAt`). -/
def dayKeys (tasks : List Task) : List Int :=
  tasks.filterMap (fun t =>
    match t.completedAt with
    | some ms => if t.completed then some (dayFloor ms) else none
    | none => none)

/-- Insert into a strictly-descending list, dropping duplicates: building the
`Set` and then sorting `(a, b) => b - a`. -/
def insertDesc (x : Int) : List Int → List Int
  | [] => [x]
  | y :: ys =>
    if x > y then x :: y :: ys
    else if x = y then y :: ys
    else y :: insertDesc x ys

/-- The distinct day keys sorted descending (`sortedDays` in the source). -/
def sortedDaysOf (keys : List Int) : List Int :=
  keys.foldr (fun k acc => insertDesc k acc) []

/-- The `for` loop of `calculateStreak` over `sortedDays[1..]`: a day equal
to `expectedDate` counts and moves the expectation a day back; a day
strictly earlier breaks; a later day would be skipped (dead for day-aligned
strictly-descending input). -/
def streakWalk : List Int → Int → Nat → Nat
  | [], _, s => s
  | d :: ds, e, s =>
    if d = e then streakWalk ds (e - msPerDay) (s + 1)
    else if d < e then s
    else streakWalk ds e s

/-- `TaskManager.calculateStreak` (script.js lines 248-299), with `now` the
current clock value. -/
def calculateStreak (tasks : List Task) (now : Int) : Nat :=
  if tasks.isEmpty then 0
  else
    match sortedDaysOf (dayKeys tasks) with
    | [] => 0
    | d0 :: rest =>
      let today := dayFloor now
      let yesterday := today - msPerDay
      if d0 = today then streakWalk rest yesterday 1
      else if d0 = yesterday then streakWalk rest (yesterday - msPerDay) 1
      else 0

/-- Counting, as the claim words it, "the number of subsequent distinct days
that each equal the previous counted day minus one day, stopping at the
first gap". -/
def specChain : List Int → Int → Nat
  | [], _ => 0
  | d :: ds, e => if d = e then 1 + specChain ds (e - msPerDay) else 0

/-- Definition following the words of claim C7 / the spec: the distinct
UTC-midnight day keys, empty set giving 0, a most recent day other than
today or yesterday giving 0, and otherwise one plus the consecutive-day
chain below it. -/
def streakSpec (tasks : List Task) (now : Int) : Nat :=
  match sortedDaysOf (dayKeys tasks) with
  | [] => 0
  | d0 :: rest =>
    let today := dayFloor now
    if d0 = today ∨ d0 = today - msPerDay then 1 + specChain rest (d0 - msPerDay)
    else 0

/-! ### The filtered / searched / sorted view -/

/-- Does `needle` start `hay`? (character-wise). -/
def startsWithChars : List Char → List Char → Bool
  | [], _ => true
  | _ :: _, [] => false
  | a :: as, b :: bs => a == b && startsWithChars as bs

/-- Substring test on character lists, `String.prototype.includes`. -/
def isSubChars (needle : List Char) : List Char → Bool
  | [] => needle.isEmpty
  | c :: rest => startsWithChars needle (c :: rest) || isSubChars needle rest

/-- `hay.includes(needle)`. -/
def strHasSub (hay needle : String) : Bool :=
  isSubChars needle.toList hay.toList

/-- The `switch (this.filter)` stage of `getFilteredTasks`. -/
def applyFilter (f : String) (ts : List Task) : List Task :=
  if f = "pending" then ts.filter (fun t => !t.completed)
  else if f = "completed" then ts.filter (fun t => t.completed)
  else ts

/-- The search stage of `getFilteredTasks`: skipped for the empty query,
otherwise a case-insensitive substring match on `text`, or on `category`
when that is non-empty (`task.category &&` short-circuits on the falsy
empty string). -/
def applySearch (q : String) (ts : List Task) : List Task :=
  if q = "" then ts
  else
    let ql := q.toLower
    ts.filter (fun t =>
      strHasSub t.text.toLower ql ||
        (!(t.category == "") && strHasSub t.category.toLower ql))

/-- The `'dueDate'` comparator of `getSortFunction` (script.js lines
200-206): both dates absent compare equal, an absent date sorts after a
present one, and present dates compare by their timestamp difference. -/
def dueDateCmp (a b : Task) : Int :=
  match a.dueDate, b.dueDate with
  | none, none => 0
  | none, some _ => 1
  | some _, none => -1
  | some x, some y => x - y

/-- Stable insertion relative to `dueDateCmp`: an element is placed before
the first list element it compares `≤ 0` against, so elements comparing
equal keep their input order.  `Array.prototype.sort` is stable
(ECMAScript 2019), and a stable sort by a consistent comparator has a
unique result, so insertion sort is a faithful model of the source's
`filtered.sort(this.getSortFunction())` for this comparator. -/
def insertDue (x : Task) : List Task → List Task
  | [] => [x]
  | y :: ys => if dueDateCmp x y ≤ 0 then x :: y :: ys else y :: insertDue x ys

/-- Stable sort by the `'dueDate'` comparator. -/
def sortByDue : List Task → List Task
  | [] => []
  | x :: xs => insertDue x (sortByDue xs)

/-- `TaskManager.getFilteredTasks` (script.js lines 170-196) specialised to
`this.sort = 'dueDate'`, the case claim C9 concerns: filter, then search,
then the stable sort by the due-date comparator. -/
def getFilteredTasksDue (ts : List Task) (f q : String) : List Task :=
  sortByDue (applySearch q (applyFilter f ts))

/-- The ordering the claim describes for the due-date view: ascending
`dueDate`, tasks lacking one last. -/
def dueLE (a b : Task) : Prop :=
  match a.dueDate, b.dueDate with
  | _, none => True
  | none, some _ => False
  | some x, some y => x ≤ y

/-! ### Invariant predicates used by the claims -/

/-- The order value stored at position `i`. -/
def ordAt (ts : List Task) (i : Nat) : Option Int := (ts[i]?).map Task.order

/-- Claim C4's property: the task at position `i` has `order = i`. -/
def orderEqIndex (ts : List Task) : Prop :=
  ∀ i : Nat, i < ts.length → ordAt ts i = some (i : Int)

instance (ts : List Task) : Decidable (orderEqIndex ts) :=
  inferInstanceAs (Decidable (∀ i : Nat, i < ts.length → ordAt ts i = some (i : Int)))

/-- Claim C5's property: the set of order values is exactly `[0, length)`. -/
def OrderSet (ts : List Task) : Prop :=
  ∀ k : Int, (ts.any (fun t => t.order == k)) = true ↔ (0 ≤ k ∧ k < ts.length)

/-- Claim C3's property: `completed` iff `completedAt` is non-null. -/
def CompInv (ts : List Task) : Prop :=
  ∀ t ∈ ts, t.completed = true ↔ t.completedAt ≠ none

instance (ts : List Task) : Decidable (CompInv ts) :=
  inferInstanceAs (Decidable (∀ t ∈ ts, t.completed = true ↔ t.completedAt ≠ none))

/-- Definition following the words of claim C1: remove the dragged task,
then insert it immediately before the target at the target's
*post-removal* index. -/
def reorderClaim (st : MState) (draggedId targetId : String) : MState × Bool :=
  match jsFindIndex (fun t => t.id == draggedId) st.tasks,
        jsFindIndex (fun t => t.id == targetId) st.tasks with
  | some di, some ti =>
    if di = ti then (st, false)
    else
      match st.tasks[di]? with
      | none => (st, false)
      | some dragged =>
        let ti2 := if di < ti then ti - 1 else ti
        ({ st with tasks := reindex (insertAt ti2 dragged (removeAt di st.tasks)) },
          true)
  | _, _ => (st, false)

/-- The empty initial state (fresh store). -/
def st0 : MState := { tasks := [], deletedTask := none }

/-- A minimal concrete task used by witnesses and counterexamples. -/
def mkT (i : String) (ord : Int) : Task :=
  { id := i, text := "t", priority := "medium", category := "",
    dueDate := none, completed := false, completedAt := none,
    createdAt := 0, order := ord }

/-! ### Helper lemmas -/

theorem reindexFrom_map_id (n : Nat) (ts : List Task) :
    (reindexFrom n ts).map Task.id = ts.map Task.id := by
  induction ts generalizing n with
  | nil => rfl
  | cons t ts ih => simp [reindexFrom, ih]

theorem reindex_map_id (ts : List Task) :
    (reindex ts).map Task.id = ts.map Task.id :=
  reindexFrom_map_id 0 ts

theorem reindexFrom_length (n : Nat) (ts : List Task) :
    (reindexFrom n ts).length = ts.length := by
  induction ts generalizing n with
  | nil => rfl
  | cons t ts ih => simp [reindexFrom, ih]

theorem ordAt_reindexFrom (n : Nat) (ts : List Task) (i : Nat) (h : i < ts.length) :
    ordAt (reindexFrom n ts) i = some ((n + i : Nat) : Int) := by
  induction ts generalizing n i with
  | nil => simp at h
  | cons t ts ih =>
    cases i with
    | zero => simp [reindexFrom, ordAt]
    | succ j =>
      have hj : j < ts.length := by simpa using h
      have := ih (n + 1) j hj
      simp only [reindexFrom, ordAt, List.getElem?_cons_succ] at this ⊢
      rw [this]
      congr 1
      omega

theorem orderEqIndex_reindex (ts : List Task) : orderEqIndex (reindex ts) := by
  intro i h
  rw [reindex, reindexFrom_length] at h
  have := ordAt_reindexFrom 0 ts i h
  simpa using this

theorem mem_of_any_order (ts : List Task) (k : Int)
    (h : (ts.any (fun t => t.order == k)) = true) : ∃ t ∈ ts, t.order = k := by
  rw [List.any_eq_true] at h
  obtain ⟨t, ht, hb⟩ := h
  exact ⟨t, ht, by simpa using hb⟩

theorem OrderSet_of_orderEqIndex (ts : List Task) (h : orderEqIndex ts) :
    OrderSet ts := by
  intro k
  constructor
  · intro ha
    obtain ⟨t, ht, hk⟩ := mem_of_any_order ts k ha
    obtain ⟨i, hi, hget⟩ := List.mem_iff_getElem.mp ht
    have := h i hi
    rw [ordAt, List.getElem?_eq_getElem hi, hget] at this
    simp only [Option.map_some'] at this
    have hoi : t.order = (i : Int) := by injection this
    exact ⟨by omega, by omega⟩
  · rintro ⟨hk0, hklen⟩
    have hi : k.toNat < ts.length := by omega
    have := h k.toNat hi
    rw [ordAt] at this
    rw [List.getElem?_eq_getElem hi] at this
    simp only [Option.map_some'] at this
    rw [List.any_eq_true]
    refine ⟨ts[k.toNat], List.getElem_mem hi, ?_⟩
    have horder : (ts[k.toNat]).order = ((k.toNat : Nat) : Int) := by injection this
    rw [beq_iff_eq, horder]
    omega

theorem OrderSet_reindex (ts : List Task) : OrderSet (reindex ts) :=
  OrderSet_of_orderEqIndex _ (orderEqIndex_reindex ts)

theorem jsFindIndex_none_iff (p : Task → Bool) (ts : List Task) :
    jsFindIndex p ts = none ↔ ∀ t ∈ ts, p t = false := by
  induction ts with
  | nil => simp [jsFindIndex]
  | cons t ts ih =>
    by_cases h : p t
    · simp [jsFindIndex, h]
    · simp only [jsFindIndex, h, if_false, Bool.false_eq_true]
      rw [Option.map_eq_none']
      simp [ih, h]

theorem jsFindIndex_found (p : Task → Bool) (ts : List Task) (i : Nat)
    (h : jsFindIndex p ts = some i) : ∃ t, ts[i]? = some t ∧ p t = true := by
  induction ts generalizing i with
  | nil => simp [jsFindIndex] at h
  | cons t ts ih =>
    by_cases hp : p t
    · simp [jsFindIndex, hp] at h
      exact ⟨t, by simp [← h], hp⟩
    · simp only [jsFindIndex, hp] at h
      rw [if_neg (by decide), Option.map_eq_some'] at h
      obtain ⟨j, hj, hji⟩ := h
      obtain ⟨u, hu, hpu⟩ := ih j hj
      exact ⟨u, by rw [← hji]; simpa using hu, hpu⟩

theorem map_removeAt {α β : Type} (f : α → β) (i : Nat) (ts : List α) :
    (removeAt i ts).map f = removeAt i (ts.map f) := by
  induction ts generalizing i with
  | nil => cases i <;> rfl
  | cons t ts ih => cases i with
    | zero => rfl
    | succ j => simp [removeAt, ih]

theorem map_insertAt {α β : Type} (f : α → β) (i : Nat) (x : α) (ts : List α) :
    (insertAt i x ts).map f = insertAt i (f x) (ts.map f) := by
  induction ts generalizing i with
  | nil => cases i <;> rfl
  | cons t ts ih => cases i with
    | zero => rfl
    | succ j => simp [insertAt, ih]

/-! ### Claim C10 -/

/-- C10: `clearAll` empties the collection but does not touch the
pending-delete slot: after a successful `deleteTask` whose undo window has
neither expired (`expireUndo` has not fired) nor been consumed, a
`clearAll` followed by `undoDelete` still restores the deleted task at the
front of the otherwise empty collection (reindexed to `order = 0`) and
returns it, rather than the no-op signal. -/
theorem C10_clearAll_keeps_pendingDelete (st : MState) (id : String)
    (st1 : MState) (t : Task) (h : deleteTask st id = (st1, some t)) :
    (clearAll st1).1.deletedTask = some t ∧
    undoDelete (clearAll st1).1 =
      ({ tasks := [{ t with order := 0 }], deletedTask := none },
        some { t with order := 0 }) := by
  simp only [deleteTask] at h
  split at h
  · simp at h
  · split at h
    · simp at h
    · rw [Prod.mk.injEq] at h
      obtain ⟨h1, h2⟩ := h
      rw [Option.some.injEq] at h2
      subst h2
      rw [← h1]
      exact ⟨rfl, rfl⟩

/-- Concrete witness for C10: a one-task state, delete, clearAll, undo. -/
def stW : MState := { tasks := [mkT "w" 0], deletedTask := none }

theorem C10_witness :
    (undoDelete (clearAll (deleteTask stW "w").1).1).2 = some (mkT "w" 0) := by
  have h := C10_clearAll_keeps_pendingDelete stW "w" (deleteTask stW "w").1
    (mkT "w" 0) (by decide)
  rw [h.2]
  decide

/-! ### Claim C2 -/

/-- C2 counterexample: `TaskManager.addTask` performs no validation.  On a
draft whose text is blank after trimming it does not fail: it inserts (and
would persist) a task whose `text` is the empty string. -/
theorem C2_counterexample :
    jsTrim (" ") = "" ∧
    ((addTask st0 5
        { text := " ", priority := none, category := none, dueDate := none }
      ).1.tasks.map Task.text) = [""] := by decide

/-- C2 (amended): the engine's `addTask` never fails and inserts a task
whose text is the trimmed draft text — blank or not; the empty-after-trim
rejection happens only in the UI caller `handleAddTask`, which leaves the
state unchanged and adds nothing when the trimmed input is empty; for
non-empty trimmed input the created task's text is the trimmed input. -/
theorem C2_add_validation_amended :
    (∀ st now input p c dd, jsTrim input = "" →
      handleAddTask st now input p c dd = (st, none)) ∧
    (∀ st now d, ((addTask st now d).1.tasks = (addTask st now d).2 :: st.tasks) ∧
      (addTask st now d).2.text = jsTrim d.text) := by
  constructor
  · intro st now input p c dd h
    simp [handleAddTask, h]
  · intro st now d
    exact ⟨rfl, rfl⟩

theorem C2_witness :
    jsTrim ("  ") = "" ∧
    handleAddTask st0 9 ("  ") ("medium") ("") none = (st0, none) :=
  ⟨by decide, C2_add_validation_amended.1 st0 9 ("  ") ("medium") ("") none (by decide)⟩

/-! ### Claim C8 -/

/-- Drafts used by id-collision examples. -/
def dA : Draft := { text := "a", priority := none, category := none, dueDate := none }

def dB : Draft := { text := "b", priority := none, category := none, dueDate := none }

/-- C8 counterexample: two `addTask` calls in the same clock millisecond
(`Date.now() = 5` twice) produce two tasks with the identical id `"5"`:
ids are not pairwise distinct. -/
theorem C8_counterexample :
    ((addTask (addTask st0 5 dA).1 5 dB).1.tasks.map Task.id = ["5", "5"]) ∧
    ¬ ((addTask (addTask st0 5 dA).1 5 dB).1.tasks.map Task.id).Nodup := by decide

theorem importLoop_nodup (now : Int) (items : List (Option RawTask)) :
    ∀ cur : List Task,
      (∀ it ∈ items, ∀ r : RawTask, it = some r → ∃ s, r.id = some s ∧ s ≠ "") →
      (cur.map Task.id).Nodup →
      ((importLoop now cur items).1.map Task.id).Nodup := by
  induction items with
  | nil => intro cur _ h2; exact h2
  | cons it rest ih =>
    intro cur h1 h2
    cases it with
    | none => exact h2
    | some r =>
      obtain ⟨s, hs, hne⟩ := h1 (some r) (List.mem_cons_self _ _) r rfl
      simp only [importLoop]
      by_cases hex : rawIdExists cur r.id
      · rw [if_pos hex]
        exact ih cur (fun it hit => h1 it (List.mem_cons_of_mem _ hit)) h2
      · rw [if_neg hex]
        apply ih _ (fun it hit => h1 it (List.mem_cons_of_mem _ hit))
        rw [List.map_append, List.nodup_append]
        refine ⟨h2, by simp, ?_⟩
        intro x hx hxs
        simp only [List.map_cons, List.map_nil, List.mem_singleton] at hxs
        have hmk : (mkImported now cur r).id = s := by
          simp [mkImported, hs, jsOrStr, hne]
        rw [hmk] at hxs
        subst hxs
        rw [List.mem_map] at hx
        obtain ⟨t, ht, hts⟩ := hx
        rw [hs] at hex
        simp only [rawIdExists, List.any_eq_true, not_exists, not_and] at hex
        exact hex t ht (by simp [hts])

/-- C8 (amended): `addTask` uses the millisecond timestamp string as the id
with no collision check, so two adds in the same millisecond collide (see
the counterexample); uniqueness does hold whenever each add's timestamp
string is not already an id in the collection.  `importTasks` skips a
record only when the record's own raw id already exists; provided every
record in the payload carries an explicit non-empty id, an import preserves
pairwise-distinct ids (a record lacking an id instead receives the
current-timestamp string without an existence check). -/
theorem C8_ids_amended :
    (∀ st now d, (∀ t ∈ st.tasks, t.id ≠ toString now) →
      (st.tasks.map Task.id).Nodup →
      ((addTask st now d).1.tasks.map Task.id).Nodup) ∧
    (∀ st now items,
      (∀ it ∈ items, ∀ r : RawTask, it = some r → ∃ s, r.id = some s ∧ s ≠ "") →
      (st.tasks.map Task.id).Nodup →
      ((importTasks st now (.arr items)).1.tasks.map Task.id).Nodup) := by
  constructor
  · intro st now d h1 h2
    simp only [addTask, List.map_cons, List.nodup_cons]
    refine ⟨?_, h2⟩
    rw [List.mem_map]
    rintro ⟨t, ht, hts⟩
    exact h1 t ht hts
  · intro st now items h1 h2
    have hloop := importLoop_nodup now items st.tasks h1 h2
    simp only [importTasks]
    split
    · rw [reindex_map_id]; exact hloop
    · exact hloop

/-- An import record with an explicit id, for the C8 witness. -/
def rGood : RawTask :=
  { id := some "g", text := some "w", priority := none, category := none,
    dueDate := none, completed := false, completedAt := none,
    createdAt := none, order := none }

theorem C8_witness :
    ((addTask st0 1 dA).1.tasks.map Task.id).Nodup ∧
    ((importTasks st0 2 (.arr [some rGood])).1.tasks.map Task.id).Nodup := by
  constructor
  · exact C8_ids_amended.1 st0 1 dA (by decide) (by decide)
  · refine C8_ids_amended.2 st0 2 [some rGood] ?_ (by decide)
    intro it hit r hr
    simp only [List.mem_singleton] at hit
    subst hit
    rw [Option.some.injEq] at hr
    subst hr
    exact ⟨"g", rfl, by decide⟩

/-! ### Claims C4 and C5 -/

theorem orderEqIndex_nil : orderEqIndex ([] : List Task) :=
  fun _ hi => absurd hi (by simp)

theorem OrderSet_nil : OrderSet ([] : List Task) := by
  intro k
  simp only [List.any_nil, List.length_nil, Nat.cast_zero]
  constructor
  · intro h; exact absurd h (by decide)
  · rintro ⟨h1, h2⟩; omega

theorem OrderSet_cons_len (t : Task) (ts : List Task)
    (ht : t.order = (ts.length : Int)) (h : OrderSet ts) : OrderSet (t :: ts) := by
  intro k
  have hk := h k
  simp only [List.any_cons, Bool.or_eq_true, beq_iff_eq, List.length_cons, ht]
  constructor
  · rintro (h1 | h1)
    · push_cast
      omega
    · have := hk.mp h1
      push_cast at this ⊢
      omega
  · rintro ⟨h1, h2⟩
    by_cases he : k = (ts.length : Int)
    · left; omega
    · refine Or.inr (hk.mpr ⟨h1, ?_⟩)
      push_cast at h2
      omega

/-- C4 counterexample: `addTask` does not reindex.  Starting from the empty
collection, adding task a (clock 1) and then task b (clock 2) leaves the
array `[b, a]` with order values `[1, 0]`: the task at position 0 has
`order = 1`, not its index. -/
theorem C4_counterexample :
    ((addTask (addTask st0 1 dA).1 2 dB).1.tasks.map Task.order = [1, 0]) ∧
    ¬ orderEqIndex ((addTask (addTask st0 1 dA).1 2 dB).1.tasks) := by decide

/-- C4 (amended): delete, undo, reorder, a successful import, clearCompleted
and clearAll all leave every task's `order` equal to its array index; `add`
however does not reindex — it gives the new front task `order` equal to the
*previous* length and leaves the existing orders untouched, so the
order-equals-index property fails right after an add to a non-empty
collection (see the counterexample). -/
theorem C4_order_eq_index_amended :
    (∀ st id st2 t, deleteTask st id = (st2, some t) → orderEqIndex st2.tasks) ∧
    (∀ st st2 t, undoDelete st = (st2, some t) → orderEqIndex st2.tasks) ∧
    (∀ st a b st2, reorderTasks st a b = (st2, true) → orderEqIndex st2.tasks) ∧
    (∀ st now p st2 c, importTasks st now p = (st2, .ok c) → orderEqIndex st2.tasks) ∧
    (∀ st, orderEqIndex (clearCompleted st).1.tasks) ∧
    (∀ st, orderEqIndex (clearAll st).1.tasks) ∧
    (∀ st now d, (addTask st now d).1.tasks.map Task.order =
      ((st.tasks.length : Int) :: st.tasks.map Task.order)) := by
  refine ⟨?_, ?_, ?_, ?_, ?_, ?_, ?_⟩
  · intro st id st2 t h
    simp only [deleteTask] at h
    split at h
    · simp at h
    · split at h
      · simp at h
      · rw [Prod.mk.injEq] at h
        rw [← h.1]
        exact orderEqIndex_reindex _
  · intro st st2 t h
    simp only [undoDelete] at h
    split at h
    · simp at h
    · rw [Prod.mk.injEq] at h
      rw [← h.1]
      exact orderEqIndex_reindex _
  · intro st a b st2 h
    simp only [reorderTasks] at h
    split at h
    · split at h
      · simp at h
      · split at h
        · simp at h
        · rw [Prod.mk.injEq] at h
          rw [← h.1]
          exact orderEqIndex_reindex _
    · simp at h
  · intro st now p st2 c h
    simp only [importTasks] at h
    split at h
    · simp at h
    · split at h
      · rw [Prod.mk.injEq] at h
        rw [← h.1]
        exact orderEqIndex_reindex _
      · simp at h
  · intro st
    exact orderEqIndex_reindex _
  · intro st
    exact orderEqIndex_nil
  · intro st now d
    rfl

/-- A two-task state for the C4 witness. -/
def stD2 : MState := { tasks := [mkT "x" 0, mkT "y" 1], deletedTask := none }

theorem C4_witness : orderEqIndex ((deleteTask stD2 "x").1.tasks) :=
  C4_order_eq_index_amended.1 stD2 "x" (deleteTask stD2 "x").1 (mkT "x" 0) (by decide)

/-- An import record carrying the out-of-range order value `7`. -/
def r7 : RawTask :=
  { id := some "a", text := none, priority := none, category := none,
    dueDate := none, completed := false, completedAt := none,
    createdAt := none, order := some 7 }

/-- C5 counterexample: an import of `[{id:"a", order:7}, null]` into the
empty collection (which satisfies the order-set invariant) throws at the
`null` record after the first record was already pushed; the call is a
structural mutation (an `importTasks` invocation), yet afterwards the order
multiset is `{7}`, not `{0}`. -/
theorem C5_counterexample :
    ((importTasks st0 3 (.arr [some r7, none])).1.tasks.map Task.order = [7]) ∧
    ¬ OrderSet ((importTasks st0 3 (.arr [some r7, none])).1.tasks) := by
  refine ⟨by decide, ?_⟩
  intro h
  exact absurd ((h 7).mp (by decide)) (by decide)

/-- C5 (amended): the order-set invariant `{t.order} = [0, len)` is
preserved by add (the new task gets `order = length`), delete, undo,
reorder, clearCompleted, clearAll, by every import that runs to completion
(`success:true`), and by a non-array import (collection untouched); but an
incomplete merge (a throw part-way through the loop) can leave pushed records
with arbitrary order values, breaking the invariant (see the
counterexample). -/
theorem C5_order_set_amended :
    (∀ st now d, OrderSet st.tasks → OrderSet (addTask st now d).1.tasks) ∧
    (∀ st id, OrderSet st.tasks → OrderSet (deleteTask st id).1.tasks) ∧
    (∀ st, OrderSet st.tasks → OrderSet (undoDelete st).1.tasks) ∧
    (∀ st a b, OrderSet st.tasks → OrderSet (reorderTasks st a b).1.tasks) ∧
    (∀ st now p st2 c, importTasks st now p = (st2, .ok c) → OrderSet st2.tasks) ∧
    (∀ st now m, OrderSet st.tasks → OrderSet (importTasks st now (.bad m)).1.tasks) ∧
    (∀ st, OrderSet (clearCompleted st).1.tasks) ∧
    (∀ st, OrderSet (clearAll st).1.tasks) := by
  refine ⟨?_, ?_, ?_, ?_, ?_, ?_, ?_, ?_⟩
  · intro st now d h
    exact OrderSet_cons_len _ _ rfl h
  · intro st id h
    simp only [deleteTask]
    split
    · exact h
    · split
      · exact h
      · exact OrderSet_reindex _
  · intro st h
    simp only [undoDelete]
    split
    · exact h
    · exact OrderSet_reindex _
  · intro st a b h
    simp only [reorderTasks]
    split
    · split
      · exact h
      · split
        · exact h
        · exact OrderSet_reindex _
    · exact h
  · intro st now p st2 c h
    simp only [importTasks] at h
    split at h
    · simp at h
    · split at h
      · rw [Prod.mk.injEq] at h
        rw [← h.1]
        exact OrderSet_reindex _
      · simp at h
  · intro st now m h
    exact h
  · intro st
    exact OrderSet_reindex _
  · intro st
    exact OrderSet_nil

theorem C5_witness : OrderSet ((addTask st0 1 dA).1.tasks) :=
  C5_order_set_amended.1 st0 1 dA OrderSet_nil

/-! ### Claim C3 -/

theorem CompInv_nil : CompInv ([] : List Task) :=
  fun _ ht => absurd ht (by simp)

theorem CompInv_reindexFrom (n : Nat) (ts : List Task) :
    CompInv ts → CompInv (reindexFrom n ts) := by
  induction ts generalizing n with
  | nil => intro h; exact h
  | cons u ts ih =>
    intro h t ht
    simp only [reindexFrom, List.mem_cons] at ht
    rcases ht with rfl | ht
    · simpa using h u (List.mem_cons_self _ _)
    · exact ih (n + 1) (fun x hx => h x (List.mem_cons_of_mem _ hx)) t ht

theorem CompInv_toggleFirst (now : Int) (id : String) (ts : List Task) :
    CompInv ts → CompInv (toggleFirst now id ts).1 := by
  induction ts with
  | nil => intro h; exact h
  | cons u ts ih =>
    intro h t ht
    by_cases hu : (u.id == id) = true
    · by_cases hc : u.completed = true
      · simp only [toggleFirst, hu, hc, if_true] at ht
        simp only [List.mem_cons] at ht
        rcases ht with rfl | ht
        · simp
        · exact h t (List.mem_cons_of_mem _ ht)
      · simp [toggleFirst, hu, hc] at ht
        rcases ht with rfl | ht
        · simp
        · exact h t (List.mem_cons_of_mem _ ht)
    · simp [toggleFirst, hu] at ht
      rcases ht with rfl | ht
      · exact h t (List.mem_cons_self _ _)
      · exact ih (fun x hx => h x (List.mem_cons_of_mem _ hx)) t ht

theorem CompInv_importLoop (now : Int) (items : List (Option RawTask)) :
    ∀ cur, (∀ it ∈ items, ∀ r : RawTask, it = some r →
        (r.completed = true ↔ r.completedAt ≠ none)) →
      CompInv cur → CompInv (importLoop now cur items).1 := by
  induction items with
  | nil => intro cur _ h; exact h
  | cons it rest ih =>
    intro cur h1 h2
    cases it with
    | none => exact h2
    | some r =>
      simp only [importLoop]
      by_cases hex : rawIdExists cur r.id
      · rw [if_pos hex]
        exact ih cur (fun x hx => h1 x (List.mem_cons_of_mem _ hx)) h2
      · rw [if_neg hex]
        apply ih _ (fun x hx => h1 x (List.mem_cons_of_mem _ hx))
        intro t ht
        rw [List.mem_append] at ht
        rcases ht with ht | ht
        · exact h2 t ht
        · simp only [List.mem_singleton] at ht
          subst ht
          have := h1 (some r) (List.mem_cons_self _ _) r rfl
          simpa [mkImported] using this

/-- The import record claim C3 singles out: `completed` is true but
`completedAt` is absent. -/
def rBadC3 : RawTask :=
  { id := some "x", text := some "t", priority := none, category := none,
    dueDate := none, completed := true, completedAt := none,
    createdAt := none, order := none }

/-- C3 counterexample: importing the single record
`{id:"x", completed:true}` (no `completedAt`) succeeds and creates a task
with `completed = true` and `completedAt = null`, violating the
completed-iff-completedAt invariant in a reachable state. -/
theorem C3_counterexample :
    ((importTasks st0 0 (.arr [some rBadC3])).1.tasks.map
      (fun t => (t.completed, t.completedAt)) = [(true, none)]) ∧
    ¬ CompInv ((importTasks st0 0 (.arr [some rBadC3])).1.tasks) := by decide

/-- C3 (amended): `completed = true ↔ completedAt ≠ null` is preserved by
`addTask` and by `toggleTaskCompletion`; `importTasks` preserves it only for
payloads whose records themselves satisfy the equivalence — a record with
`completed:true` but no `completedAt` (or the converse) is copied verbatim
and breaks the invariant (see the counterexample). -/
theorem C3_completed_iff_amended :
    (∀ st now d, CompInv st.tasks → CompInv (addTask st now d).1.tasks) ∧
    (∀ st now id, CompInv st.tasks →
      CompInv (toggleTaskCompletion st now id).1.tasks) ∧
    (∀ st now p, CompInv st.tasks →
      (∀ it ∈ payloadItems p, ∀ r : RawTask, it = some r →
        (r.completed = true ↔ r.completedAt ≠ none)) →
      CompInv (importTasks st now p).1.tasks) := by
  refine ⟨?_, ?_, ?_⟩
  · intro st now d h t ht
    simp [addTask] at ht
    rcases ht with rfl | ht
    · simp
    · exact h t ht
  · intro st now id h
    exact CompInv_toggleFirst now id st.tasks h
  · intro st now p h hr
    cases p with
    | bad m => exact h
    | arr items =>
      have hl := CompInv_importLoop now items st.tasks
        (by simpa [payloadItems] using hr) h
      simp only [importTasks]
      split
      · exact CompInv_reindexFrom 0 _ hl
      · exact hl

theorem C3_witness :
    CompInv ((addTask st0 1 dA).1.tasks) ∧
    CompInv ((toggleTaskCompletion (addTask st0 1 dA).1 5 ("1")).1.tasks) ∧
    CompInv ((importTasks st0 2 (.arr [some rGood])).1.tasks) := by
  have h1 := C3_completed_iff_amended.1 st0 1 dA CompInv_nil
  refine ⟨h1, C3_completed_iff_amended.2.1 (addTask st0 1 dA).1 5 ("1") h1, ?_⟩
  refine C3_completed_iff_amended.2.2 st0 2 (.arr [some rGood]) CompInv_nil ?_
  intro it hit r hr
  simp only [payloadItems, List.mem_singleton] at hit
  subst hit
  rw [Option.some.injEq] at hr
  subst hr
  decide

/-! ### Claim C1 -/

/-- The state of Scenario F: the view `[T3, T2, T1]`. -/
def stF : MState :=
  { tasks := [mkT "T3" 0, mkT "T2" 1, mkT "T1" 2], deletedTask := none }

/-- The state `[A, B]` exhibiting the divergence of C1. -/
def stAB : MState := { tasks := [mkT "A" 0, mkT "B" 1], deletedTask := none }

/-- C1 counterexample: on `[A, B]`, `reorder(A, B)` (dragged task before the
target) gives `[B, A]` — the dragged task is spliced back in at the
target's *pre-removal* index 1, i.e. immediately *after* the target —
whereas the claim's remove-then-insert-before-the-target-at-its-
post-removal-index semantics (`reorderClaim`) would give `[A, B]`. -/
theorem C1_counterexample :
    ((reorderTasks stAB "A" "B").1.tasks.map Task.id = ["B", "A"]) ∧
    ((reorderClaim stAB "A" "B").1.tasks.map Task.id = ["A", "B"]) ∧
    (reorderTasks stAB "A" "B").1.tasks ≠ (reorderClaim stAB "A" "B").1.tasks := by
  decide

/-- C1 (amended): `reorder` returns false and leaves the collection
unchanged if either id is absent or the two ids are equal; otherwise it
removes the dragged task and reinserts it at the target's *pre-removal*
index (immediately before the target when the dragged task was behind it,
immediately after the target when it was ahead of it), reindexes `order`
contiguously over the whole list, and returns true.  On `[T3,T2,T1]`,
`reorder(T1, T3)` still yields `[T1,T3,T2]` with order `{T1:0,T3:1,T2:2}`. -/
theorem C1_reorder_amended :
    (∀ st dId tId,
      (dId = tId ∨ (∀ t ∈ st.tasks, t.id ≠ dId) ∨ (∀ t ∈ st.tasks, t.id ≠ tId)) →
      reorderTasks st dId tId = (st, false)) ∧
    (∀ st dId tId di ti dragged,
      jsFindIndex (fun t => t.id == dId) st.tasks = some di →
      jsFindIndex (fun t => t.id == tId) st.tasks = some ti →
      di ≠ ti → st.tasks[di]? = some dragged →
      (reorderTasks st dId tId).2 = true ∧
      (reorderTasks st dId tId).1.tasks.map Task.id =
        insertAt ti dId (removeAt di (st.tasks.map Task.id)) ∧
      orderEqIndex (reorderTasks st dId tId).1.tasks) ∧
    (((reorderTasks stF "T1" "T3").1.tasks.map (fun t => (t.id, t.order)) =
        [("T1", 0), ("T3", 1), ("T2", 2)]) ∧
      (reorderTasks stF "T1" "T3").2 = true ∧
      reorderTasks stF "T1" "T1" = (stF, false)) := by
  refine ⟨?_, ?_, by decide⟩
  · intro st dId tId h
    rcases h with rfl | habs | habs
    · cases hf : jsFindIndex (fun t => t.id == dId) st.tasks with
      | none => simp [reorderTasks, hf]
      | some di => simp [reorderTasks, hf]
    · have hf : jsFindIndex (fun t => t.id == dId) st.tasks = none :=
        (jsFindIndex_none_iff _ _).mpr (fun t ht => by simpa using habs t ht)
      cases ht : jsFindIndex (fun t => t.id == tId) st.tasks with
      | none => simp [reorderTasks, hf, ht]
      | some ti => simp [reorderTasks, hf, ht]
    · have htf : jsFindIndex (fun t => t.id == tId) st.tasks = none :=
        (jsFindIndex_none_iff _ _).mpr (fun t ht => by simpa using habs t ht)
      cases hf : jsFindIndex (fun t => t.id == dId) st.tasks with
      | none => simp [reorderTasks, hf, htf]
      | some di => simp [reorderTasks, hf, htf]
  · intro st dId tId di ti dragged hdf htf hne hdrag
    obtain ⟨u, hu, hpu⟩ := jsFindIndex_found _ _ _ hdf
    rw [hdrag] at hu
    rw [Option.some.injEq] at hu
    subst hu
    rw [beq_iff_eq] at hpu
    simp only [reorderTasks, hdf, htf]
    rw [if_neg hne]
    simp only [hdrag]
    refine ⟨trivial, ?_, orderEqIndex_reindex _⟩
    rw [reindex_map_id, map_insertAt, map_removeAt, hpu]

theorem C1_witness :
    (reorderTasks stF "T1" "T3").2 = true ∧
    reorderTasks stF "T1" "T1" = (stF, false) :=
  ⟨(C1_reorder_amended.2.1 stF "T1" "T3" 2 0 (mkT "T1" 2)
      (by decide) (by decide) (by decide) (by decide)).1,
    C1_reorder_amended.1 stF "T1" "T1" (Or.inl rfl)⟩

/-! ### Claim C6 -/

theorem importLoop_app (now : Int) (items : List (Option RawTask)) :
    ∀ cur, (∀ it ∈ items, it ≠ none) →
      ∃ ext, importLoop now cur items = (cur ++ ext, true) := by
  induction items with
  | nil => intro cur _; exact ⟨[], by simp [importLoop]⟩
  | cons it rest ih =>
    intro cur h
    cases it with
    | none => exact absurd rfl (h none (List.mem_cons_self _ _))
    | some r =>
      simp only [importLoop]
      by_cases hex : rawIdExists cur r.id
      · rw [if_pos hex]
        exact ih cur (fun x hx => h x (List.mem_cons_of_mem _ hx))
      · rw [if_neg hex]
        obtain ⟨ext, hext⟩ :=
          ih (cur ++ [mkImported now cur r]) (fun x hx => h x (List.mem_cons_of_mem _ hx))
        exact ⟨[mkImported now cur r] ++ ext, by rw [hext, List.append_assoc]⟩

theorem importLoop_hits_none (now : Int) (items : List (Option RawTask)) :
    ∀ cur, none ∈ items → (importLoop now cur items).2 = false := by
  induction items with
  | nil => intro cur h; simp at h
  | cons it rest ih =>
    intro cur h
    cases it with
    | none => rfl
    | some r =>
      have hr : none ∈ rest := by
        rcases List.mem_cons.mp h with h | h
        · exact absurd h (by simp)
        · exact h
      simp only [importLoop]
      exact ih _ hr

/-- The record used by the C6 counterexample. -/
def rB6 : RawTask :=
  { id := some "b6", text := some "hello", priority := none, category := none,
    dueDate := none, completed := false, completedAt := none,
    createdAt := none, order := none }

/-- C6 counterexample: importing `[{id:"b6", ...}, null]` into the empty
collection reports a failure (the merge loop throws at the `null` record),
yet the collection is *not* left as it was: the first record has already
been pushed. -/
theorem C6_counterexample :
    ((importTasks st0 4 (.arr [some rB6, none])).2 =
      .err ("Cannot read properties of null")) ∧
    ((importTasks st0 4 (.arr [some rB6, none])).1.tasks.map Task.id = ["b6"]) ∧
    (importTasks st0 4 (.arr [some rB6, none])).1 ≠ st0 := by decide

/-- C6 (amended): when the payload is not an array after unwrapping (or
fails to parse), `importTasks` returns `{success:false, error}` with the
collection untouched; when the payload is an array with no `null` records,
it succeeds, returns `count` equal to the number of records considered, and
the prior tasks stay (reindexed) at the front with the merged records
appended; but when the merge loop throws on a `null` record the call
returns a failure with records merged before the error still in the
collection (see the counterexample). -/
theorem C6_import_amended :
    (∀ st now m, importTasks st now (.bad m) = (st, .err m)) ∧
    (∀ st now items, (∀ it ∈ items, it ≠ none) →
      ∃ ext, importTasks st now (.arr items) =
        ({ st with tasks := reindex (st.tasks ++ ext) }, .ok items.length)) ∧
    (∀ st now items, none ∈ items →
      (importTasks st now (.arr items)).2 =
        .err ("Cannot read properties of null")) := by
  refine ⟨?_, ?_, ?_⟩
  · intro st now m; rfl
  · intro st now items h
    obtain ⟨ext, hext⟩ := importLoop_app now items st.tasks h
    refine ⟨ext, ?_⟩
    simp [importTasks, hext]
  · intro st now items h
    have hl := importLoop_hits_none now items st.tasks h
    simp [importTasks, hl]

theorem C6_witness :
    ((importTasks st0 6 (.arr [some rB6])).2 = .ok 1) ∧
    ((importTasks st0 6 (.arr [none])).2 =
      .err ("Cannot read properties of null")) := by
  constructor
  · obtain ⟨ext, hext⟩ := C6_import_amended.2.1 st0 6 [some rB6]
      (by intro it hit; simp only [List.mem_singleton] at hit; subst hit; decide)
    rw [hext]
    rfl
  · exact C6_import_amended.2.2 st0 6 [none] (List.mem_singleton.mpr rfl)

/-! ### Claim C7 -/

theorem msPerDay_dvd_dayFloor (t : Int) : msPerDay ∣ dayFloor t := by
  rw [dayFloor]
  exact dvd_mul_left _ _

theorem keys_aligned (ts : List Task) : ∀ k ∈ dayKeys ts, msPerDay ∣ k := by
  intro k hk
  rw [dayKeys, List.mem_filterMap] at hk
  obtain ⟨t, ht, hy⟩ := hk
  cases hca : t.completedAt with
  | none => rw [hca] at hy; simp at hy
  | some ms =>
    rw [hca] at hy
    by_cases hc : t.completed = true
    · simp [hc] at hy
      subst hy
      exact msPerDay_dvd_dayFloor ms
    · simp [hc] at hy

theorem mem_insertDesc (x : Int) (l : List Int) (y : Int) :
    y ∈ insertDesc x l ↔ y = x ∨ y ∈ l := by
  induction l with
  | nil => simp [insertDesc]
  | cons z zs ih =>
    simp only [insertDesc]
    by_cases h1 : x > z
    · rw [if_pos h1]
      simp [List.mem_cons]
    · rw [if_neg h1]
      by_cases h2 : x = z
      · rw [if_pos h2]
        subst h2
        simp [List.mem_cons]
      · rw [if_neg h2]
        simp only [List.mem_cons, ih]
        tauto

theorem pairwise_insertDesc (x : Int) (l : List Int)
    (h : l.Pairwise (· > ·)) : (insertDesc x l).Pairwise (· > ·) := by
  induction l with
  | nil => simp [insertDesc]
  | cons z zs ih =>
    rw [List.pairwise_cons] at h
    obtain ⟨hz, hzs⟩ := h
    simp only [insertDesc]
    by_cases h1 : x > z
    · rw [if_pos h1]
      rw [List.pairwise_cons]
      constructor
      · intro a ha
        rcases List.mem_cons.mp ha with rfl | ha
        · exact h1
        · exact lt_trans (hz a ha) h1
      · rw [List.pairwise_cons]
        exact ⟨hz, hzs⟩
    · rw [if_neg h1]
      by_cases h2 : x = z
      · rw [if_pos h2]
        rw [List.pairwise_cons]
        exact ⟨hz, hzs⟩
      · rw [if_neg h2]
        rw [List.pairwise_cons]
        constructor
        · intro a ha
          rcases (mem_insertDesc x zs a).mp ha with rfl | ha
          · omega
          · exact hz a ha
        · exact ih hzs

theorem sortedDaysOf_pairwise (ks : List Int) :
    (sortedDaysOf ks).Pairwise (· > ·) := by
  rw [sortedDaysOf]
  induction ks with
  | nil => simp
  | cons k ks ih => exact pairwise_insertDesc k _ ih

theorem mem_sortedDaysOf (ks : List Int) (y : Int) :
    y ∈ sortedDaysOf ks ↔ y ∈ ks := by
  rw [sortedDaysOf]
  induction ks with
  | nil => simp
  | cons k ks ih =>
    simp only [List.foldr_cons, mem_insertDesc, ih, List.mem_cons]

theorem aligned_lt_le (a b : Int) (ha : msPerDay ∣ a) (hb : msPerDay ∣ b)
    (h : a < b) : a ≤ b - msPerDay := by
  have hd : msPerDay ∣ (b - a) := dvd_sub hb ha
  have hpos : 0 < b - a := by omega
  have := Int.le_of_dvd hpos hd
  have hw : msPerDay = 86400000 := rfl
  omega

theorem streakWalk_eq_specChain (ds : List Int) :
    ∀ e s, ds.Pairwise (· > ·) → (∀ d ∈ ds, msPerDay ∣ d) → msPerDay ∣ e →
      (∀ d ∈ ds, d ≤ e) → streakWalk ds e s = s + specChain ds e := by
  induction ds with
  | nil => intro e s _ _ _ _; simp [streakWalk, specChain]
  | cons d ds ih =>
    intro e s hp ha he hle
    rw [List.pairwise_cons] at hp
    by_cases hde : d = e
    · subst hde
      have h1 : streakWalk (d :: ds) d s = streakWalk ds (d - msPerDay) (s + 1) := by
        simp [streakWalk]
      have h2 : specChain (d :: ds) d = 1 + specChain ds (d - msPerDay) := by
        simp [specChain]
      have hle2 : ∀ x ∈ ds, x ≤ d - msPerDay := fun x hx =>
        aligned_lt_le x d (ha x (List.mem_cons_of_mem _ hx))
          (ha d (List.mem_cons_self _ _)) (hp.1 x hx)
      rw [h1, h2, ih (d - msPerDay) (s + 1) hp.2
        (fun x hx => ha x (List.mem_cons_of_mem _ hx))
        (dvd_sub (ha d (List.mem_cons_self _ _)) dvd_rfl) hle2]
      omega
    · have hlt : d < e := lt_of_le_of_ne (hle d (List.mem_cons_self _ _)) hde
      have h1 : streakWalk (d :: ds) e s = s := by simp [streakWalk, hde, hlt]
      have h2 : specChain (d :: ds) e = 0 := by simp [specChain, hde]
      rw [h1, h2]
      omega

/-- Concrete tasks for the streak scenarios (UTC day `D = 0` is "today"). -/
def tDoneToday : Task :=
  { id := "s1", text := "t", priority := "medium", category := "",
    dueDate := none, completed := true, completedAt := some 0,
    createdAt := 0, order := 0 }

def tDoneYest : Task :=
  { id := "s2", text := "t", priority := "medium", category := "",
    dueDate := none, completed := true, completedAt := some (-86400000),
    createdAt := 0, order := 1 }

def tDoneOld : Task :=
  { id := "s3", text := "t", priority := "medium", category := "",
    dueDate := none, completed := true, completedAt := some (-259200000),
    createdAt := 0, order := 0 }

/-- C7: `calculateStreak` computes exactly the claim's description
(`streakSpec`, written from the claim's words): the distinct UTC-midnight
day keys of `completedAt` over completed tasks; 0 when the set is empty or
when the most recent day is neither today nor yesterday (UTC); otherwise 1
plus the run of consecutive previous days, stopping at the first gap.  In
particular, completions on UTC days D (today) and D-1 give streak 2, and a
completion only on day D-3 gives streak 0. -/
theorem C7_streak_correct :
    (∀ tasks now, calculateStreak tasks now = streakSpec tasks now) ∧
    (calculateStreak [tDoneToday, tDoneYest] 0 = 2) ∧
    (calculateStreak [tDoneOld] 0 = 0) := by
  refine ⟨?_, by decide, by decide⟩
  intro tasks now
  by_cases hemp : tasks.isEmpty
  · have : tasks = [] := by simpa using hemp
    subst this
    rfl
  · simp only [calculateStreak]
    rw [if_neg hemp]
    cases hdays : sortedDaysOf (dayKeys tasks) with
    | nil => simp only [streakSpec, hdays]
    | cons d0 rest =>
      simp only [streakSpec, hdays]
      have hmemkeys : ∀ d, d ∈ d0 :: rest → msPerDay ∣ d := by
        intro d hd
        have hmem : d ∈ sortedDaysOf (dayKeys tasks) := by rw [hdays]; exact hd
        exact keys_aligned tasks d ((mem_sortedDaysOf _ d).mp hmem)
      have hpair : (d0 :: rest).Pairwise (· > ·) := by
        rw [← hdays]
        exact sortedDaysOf_pairwise _
      rw [List.pairwise_cons] at hpair
      by_cases h0 : d0 = dayFloor now
      · rw [if_pos h0, if_pos (Or.inl h0)]
        have hrest_le : ∀ x ∈ rest, x ≤ dayFloor now - msPerDay := by
          intro x hx
          have := aligned_lt_le x d0 (hmemkeys x (List.mem_cons_of_mem _ hx))
            (hmemkeys d0 (List.mem_cons_self _ _)) (hpair.1 x hx)
          omega
        rw [streakWalk_eq_specChain rest (dayFloor now - msPerDay) 1 hpair.2
          (fun x hx => hmemkeys x (List.mem_cons_of_mem _ hx))
          (dvd_sub (msPerDay_dvd_dayFloor now) dvd_rfl) hrest_le]
        rw [h0]
      · rw [if_neg h0]
        by_cases h1 : d0 = dayFloor now - msPerDay
        · rw [if_pos h1, if_pos (Or.inr h1)]
          have hrest_le : ∀ x ∈ rest, x ≤ dayFloor now - msPerDay - msPerDay := by
            intro x hx
            have := aligned_lt_le x d0 (hmemkeys x (List.mem_cons_of_mem _ hx))
              (hmemkeys d0 (List.mem_cons_self _ _)) (hpair.1 x hx)
            omega
          rw [streakWalk_eq_specChain rest (dayFloor now - msPerDay - msPerDay) 1
            hpair.2 (fun x hx => hmemkeys x (List.mem_cons_of_mem _ hx))
            (dvd_sub (dvd_sub (msPerDay_dvd_dayFloor now) dvd_rfl) dvd_rfl) hrest_le]
          rw [h1]
        · rw [if_neg h1, if_neg (by tauto)]

/-! ### Claim C9 -/

theorem dueDateCmp_le_iff (a b : Task) : dueDateCmp a b ≤ 0 ↔ dueLE a b := by
  cases ha : a.dueDate <;> cases hb : b.dueDate <;>
    simp [dueDateCmp, dueLE, ha, hb] <;> omega

theorem dueLE_total (a b : Task) : dueLE a b ∨ dueLE b a := by
  cases ha : a.dueDate <;> cases hb : b.dueDate <;>
    simp [dueLE, ha, hb] <;> omega

theorem dueLE_trans {a b c : Task} (h1 : dueLE a b) (h2 : dueLE b c) :
    dueLE a c := by
  cases ha : a.dueDate <;> cases hb : b.dueDate <;> cases hc : c.dueDate <;>
    simp_all [dueLE] <;> omega

theorem dueDateCmp_pos_ne (x y : Task) (h : 0 < dueDateCmp x y) :
    x.dueDate ≠ y.dueDate := by
  cases hx : x.dueDate <;> cases hy : y.dueDate <;>
    simp [dueDateCmp, hx, hy] at h ⊢ <;> omega

theorem mem_insertDue (x : Task) (l : List Task) (y : Task) :
    y ∈ insertDue x l ↔ y = x ∨ y ∈ l := by
  induction l with
  | nil => simp [insertDue]
  | cons z zs ih =>
    simp only [insertDue]
    by_cases hc : dueDateCmp x z ≤ 0
    · rw [if_pos hc]
      simp [List.mem_cons]
    · rw [if_neg hc]
      simp only [List.mem_cons, ih]
      tauto

theorem pairwise_insertDue (x : Task) (l : List Task)
    (h : l.Pairwise dueLE) : (insertDue x l).Pairwise dueLE := by
  induction l with
  | nil => simp [insertDue]
  | cons y ys ih =>
    rw [List.pairwise_cons] at h
    obtain ⟨hy, hys⟩ := h
    simp only [insertDue]
    by_cases hc : dueDateCmp x y ≤ 0
    · rw [if_pos hc]
      have hxy : dueLE x y := (dueDateCmp_le_iff x y).mp hc
      rw [List.pairwise_cons]
      constructor
      · intro a ha
        rcases List.mem_cons.mp ha with rfl | ha
        · exact hxy
        · exact dueLE_trans hxy (hy a ha)
      · rw [List.pairwise_cons]
        exact ⟨hy, hys⟩
    · rw [if_neg hc]
      have hyx : dueLE y x := by
        rcases dueLE_total x y with h | h
        · exact absurd ((dueDateCmp_le_iff x y).mpr h) hc
        · exact h
      rw [List.pairwise_cons]
      constructor
      · intro a ha
        rcases (mem_insertDue x ys a).mp ha with rfl | ha
        · exact hyx
        · exact hy a ha
      · exact ih hys

theorem pairwise_sortByDue (l : List Task) : (sortByDue l).Pairwise dueLE := by
  induction l with
  | nil => simp [sortByDue]
  | cons x xs ih => exact pairwise_insertDue x _ ih

theorem perm_insertDue (x : Task) (l : List Task) :
    List.Perm (insertDue x l) (x :: l) := by
  induction l with
  | nil => exact List.Perm.refl _
  | cons y ys ih =>
    simp only [insertDue]
    by_cases hc : dueDateCmp x y ≤ 0
    · rw [if_pos hc]
    · rw [if_neg hc]
      exact (List.Perm.cons y ih).trans (List.Perm.swap x y ys)

theorem perm_sortByDue (l : List Task) : List.Perm (sortByDue l) l := by
  induction l with
  | nil => exact List.Perm.refl _
  | cons x xs ih => exact (perm_insertDue x _).trans (List.Perm.cons x ih)

theorem filter_insertDue_pos (x : Task) (k : Option Int) (l : List Task)
    (hx : x.dueDate = k) :
    (insertDue x l).filter (fun t => t.dueDate == k) =
      x :: l.filter (fun t => t.dueDate == k) := by
  have hbx : (x.dueDate == k) = true := by simp [hx]
  induction l with
  | nil => simp [insertDue, List.filter_cons, hbx]
  | cons y ys ih =>
    simp only [insertDue]
    by_cases hc : dueDateCmp x y ≤ 0
    · rw [if_pos hc]
      simp [List.filter_cons, hbx]
    · rw [if_neg hc]
      have hne := dueDateCmp_pos_ne x y (by omega)
      have hby : (y.dueDate == k) = false := by
        simp only [beq_eq_false_iff_ne]
        intro hk
        exact hne (by rw [hx, ← hk])
      simp [List.filter_cons, hby, ih]

theorem filter_insertDue_neg (x : Task) (k : Option Int) (l : List Task)
    (hx : ¬ x.dueDate = k) :
    (insertDue x l).filter (fun t => t.dueDate == k) =
      l.filter (fun t => t.dueDate == k) := by
  have hbx : (x.dueDate == k) = false := by simp [hx]
  induction l with
  | nil => simp [insertDue, List.filter_cons, hbx]
  | cons y ys ih =>
    simp only [insertDue]
    by_cases hc : dueDateCmp x y ≤ 0
    · rw [if_pos hc]
      simp [List.filter_cons, hbx]
    · rw [if_neg hc]
      simp [List.filter_cons, ih]

theorem filter_sortByDue (l : List Task) (k : Option Int) :
    (sortByDue l).filter (fun t => t.dueDate == k) =
      l.filter (fun t => t.dueDate == k) := by
  induction l with
  | nil => rfl
  | cons x xs ih =>
    simp only [sortByDue]
    by_cases hx : x.dueDate = k
    · rw [filter_insertDue_pos x k _ hx, ih]
      have hbx : (x.dueDate == k) = true := by simp [hx]
      simp [List.filter_cons, hbx]
    · rw [filter_insertDue_neg x k _ hx, ih]
      have hbx : (x.dueDate == k) = false := by simp [hx]
      simp [List.filter_cons, hbx]

/-- C9: for `sortKey = dueDate` the view is the filtered+searched sequence
sorted so that present due dates come first in ascending order and tasks
lacking one come last (`Pairwise dueLE`); the result is a permutation of
that base sequence; and the sort is stable: for every due-date key `k`
(including `none`, i.e. both tasks lacking a due date), the subsequence of
tasks with that key is exactly the subsequence of the base input with that
key, in input order. -/
theorem C9_dueDate_sort :
    ∀ ts f q,
      (getFilteredTasksDue ts f q).Pairwise dueLE ∧
      (getFilteredTasksDue ts f q).Perm (applySearch q (applyFilter f ts)) ∧
      (∀ k : Option Int,
        (getFilteredTasksDue ts f q).filter (fun t => t.dueDate == k) =
          (applySearch q (applyFilter f ts)).filter (fun t => t.dueDate == k)) :=
  fun ts f q =>
    ⟨pairwise_sortByDue _, perm_sortByDue _, fun k => filter_sortByDue _ k⟩

end TaskFlow
